import Mathlib

/-!
Verification of the `fuzzymatchcursor` repository.

The repository wraps a CSV row-matching engine behind a Next.js UI:
`src/lib/actions.ts` uploads a CSV, invokes the matching engine
(`scripts/process_csv.py`, invoked as a subprocess and not part of the
TypeScript sources) and returns the produced output table;
`src/app/page.tsx` pre-validates the CSV client-side.

Strings are modelled as lists of characters (`List Char`), so that every
string operation is a structurally recursive function that the kernel can
evaluate.  Functions present in the TypeScript sources
(`sanitizeFilename`, `validateCSVColumns`, `runPythonScript`) are
translated directly from those sources.  The matching engine itself
(loader, exact matcher, embedding provider, similarity scorer, assignment
resolver, result writer) exists only as the external Python script, which
is not part of the repository sources; those components are modelled from
the specification, as indicated on each definition.
-/

namespace FuzzyMatch


/-! ## Filename sanitization, from `sanitizeFilename` in `src/lib/actions.ts`

The source performs three steps in order:
`.replace(/[^a-zA-Z0-9._-]/g, "_")`, then `.replace(/^\.+/, "")`,
then `.substring(0, 255)`.  After the first step every character is
ASCII, so JavaScript UTF-16 units coincide with characters. -/

/-- Characters admitted by the character class `[a-zA-Z0-9._-]`. -/
def allowedFilenameChar (c : Char) : Bool :=
  ('a' ≤ c && c ≤ 'z') || ('A' ≤ c && c ≤ 'Z') || ('0' ≤ c && c ≤ '9') ||
    c == '.' || c == '_' || c == '-'

/-- Translation of `sanitizeFilename` from `src/lib/actions.ts` (the same
function appears verbatim in the streaming route and in the older action
variant). -/
def sanitizeFilename (s : List Char) : List Char :=
  (((s.map fun c => if allowedFilenameChar c then c else '_').dropWhile
      fun c => c == '.').take 255)

/-! ## Client-side CSV validation, from `validateCSVColumns` in `src/app/page.tsx`

The source splits the file text on newlines, keeps the lines that are
nonempty after trimming, requires at least 2 nonempty comma-separated
columns in the header line, and checks that each of the data rows among
the first ten lines also has at least 2 nonempty columns. -/

/-- Whitespace characters stripped by JavaScript `trim` (the ASCII ones;
11 and 12 are vertical tab and form feed). -/
def isJsWhitespace (c : Char) : Bool :=
  c == ' ' || c == '\t' || c == '\n' || c == '\r' ||
    c == Char.ofNat 11 || c == Char.ofNat 12

/-- JavaScript `String.prototype.trim` on a list of characters. -/
def jsTrim (l : List Char) : List Char :=
  ((l.dropWhile isJsWhitespace).reverse.dropWhile isJsWhitespace).reverse

/-- JavaScript `String.prototype.split` with a one-character separator:
keeps empty segments, and splitting the empty string yields one empty
segment. -/
def splitOnChar (sep : Char) : List Char → List (List Char)
  | [] => [[]]
  | c :: cs =>
    match splitOnChar sep cs with
    | [] => [[]]
    | w :: ws => if c == sep then [] :: w :: ws else (c :: w) :: ws

/-- Columns of one CSV line as the source computes them:
`line.split(",").map((col) => col.trim()).filter((col) => col.length > 0)`. -/
def csvColumns (line : List Char) : List (List Char) :=
  ((splitOnChar ',' line).map jsTrim).filter fun c => !c.isEmpty

/-- Nonempty lines of the file as the source computes them:
`text.split("\n").filter((line) => line.trim().length > 0)`. -/
def nonEmptyLines (content : List Char) : List (List Char) :=
  (splitOnChar '\n' content).filter fun l => !(jsTrim l).isEmpty

/-- Translation of `validateCSVColumns` from `src/app/page.tsx` (content
checks only; the file-presence and `.csv`-extension checks precede them in
the source).  The loop `for (let i = 1; i < Math.min(lines.length, 10); i++)`
examines the data rows among the first ten kept lines, i.e. `rest.take 9`. -/
def validateCSVColumns (content : List Char) : Bool :=
  match nonEmptyLines content with
  | [] => false
  | first :: rest =>
    if (csvColumns first).length < 2 then false
    else (rest.take 9).all fun line => decide (2 ≤ (csvColumns line).length)

/-! ## Server action `runPythonScript`, from `src/lib/actions.ts`

The whole body of `runPythonScript` sits in one `try`; the single `catch`
turns any thrown error into `{ success: false, message: error.message ||
"Error running Python script", ... }`.  Each external effect (the `fetch`
call on Vercel, and `writeFile` / `execAsync` / `readFile` locally) is
modelled by its outcome recorded in an environment; a thrown JavaScript
error is modelled by the message it carries.  The `access` probe for the
venv interpreter only selects the interpreter path (its failure is caught
inside the function), so it does not appear in the environment. -/

/-- Outcome of a JavaScript computation that may throw: a value, or a
thrown error carrying its message. -/
inductive JsOutcome (α : Type) where
  | ok (value : α)
  | thrown (msg : String)

/-- The JSON body of the Vercel Python function, as the fields
`runPythonScript` reads from it (after the optional `body`-string
unwrapping). -/
structure VercelResult where
  success : Bool
  error : Option String
  output_file_name : Option String
  output_base64 : Option String

/-- The parts of a `fetch` response that `runPythonScript` consumes.
`parsedError` is `some e` when `JSON.parse` of the error text succeeds
with error field `e` (the empty string standing for an absent or falsy
field) and `none` when parsing throws; `json` is the outcome of
`response.json()`. -/
structure FetchResponse where
  ok : Bool
  status : Nat
  text : String
  parsedError : Option String
  json : JsOutcome VercelResult

/-- One invocation environment for `runPythonScript`: the uploaded file's
name (when present) and the outcome of each external effect. -/
structure ActionEnv where
  file : Option String
  isVercel : Bool
  fetchResult : JsOutcome FetchResponse
  writeFileResult : JsOutcome Unit
  execResult : JsOutcome (String × String)
  readOutputResult : JsOutcome String

/-- The data of a successful return from the `try` body. -/
structure RunOk where
  message : String
  output : String
  outputFileName : String
  outputBase64 : Option String

/-- `sanitizeFilename` lifted to `String`. -/
def sanitizeFilenameS (s : String) : String :=
  ⟨sanitizeFilename s.data⟩

/-- The Vercel branch of `runPythonScript`: POST to `/api/process-csv`,
throw on a non-ok response (with the parsed error field, the raw error
text, or an `HTTP status` fallback), throw when the returned JSON has
`success` false, and otherwise return the output record. -/
def vercelBranch (name : String) (env : ActionEnv) : JsOutcome RunOk :=
  match env.fetchResult with
  | .thrown m => .thrown m
  | .ok resp =>
    if resp.ok then
      match resp.json with
      | .thrown m => .thrown m
      | .ok r =>
        if r.success then
          .ok { message := "Python script executed successfully"
                output := ""
                outputFileName :=
                  match r.output_file_name with
                  | some n => if n = "" then "matched_" ++ name else n
                  | none => "matched_" ++ name
                outputBase64 := r.output_base64 }
        else
          .thrown (match r.error with
            | some e => if e = "" then "Python script failed" else e
            | none => "Python script failed")
    else
      .thrown (match resp.parsedError with
        | some e => if e = "" then "HTTP " ++ toString resp.status else e
        | none => if resp.text = "" then "HTTP " ++ toString resp.status
                  else resp.text)

/-- The local branch of `runPythonScript`: write the upload to a temp
file, run the Python script, read the produced output file; any failing
step throws. -/
def localBranch (name : String) (env : ActionEnv) : JsOutcome RunOk :=
  match env.writeFileResult with
  | .thrown m => .thrown m
  | .ok _ =>
    match env.execResult with
    | .thrown m => .thrown m
    | .ok (stdout, _) =>
      match env.readOutputResult with
      | .thrown m => .thrown m
      | .ok content =>
        .ok { message := "Python script executed successfully"
              output := stdout
              outputFileName := sanitizeFilenameS ("matched_" ++ name)
              outputBase64 := some content }

/-- The object `runPythonScript` resolves with. -/
structure ActionResult where
  success : Bool
  message : String
  output : Option String
  outputFileName : Option String
  outputBase64 : Option String

/-- Translation of `runPythonScript` from `src/lib/actions.ts`: the `try`
body throws `Missing file` when no file is posted, otherwise takes the
Vercel or the local branch; the `catch` maps a thrown message `m` to a
failure result with message `m || "Error running Python script"`. -/
def runPythonScript (env : ActionEnv) : ActionResult :=
  match (match env.file with
    | none => JsOutcome.thrown "Missing file"
    | some name =>
        if env.isVercel then vercelBranch name env else localBranch name env) with
  | .ok r =>
      { success := true, message := r.message, output := some r.output,
        outputFileName := some r.outputFileName, outputBase64 := r.outputBase64 }
  | .thrown m =>
      { success := false
        message := if m = "" then "Error running Python script" else m
        output := none, outputFileName := none, outputBase64 := none }

/-! ## Similarity Scorer

Modelled from the spec: the scorer lives in `scripts/process_csv.py`,
which is invoked as an external process and is absent from the repository
sources.  Section 4.4 of the spec defines
`score(i,j) = dot(i,j) / (‖i‖·‖j‖)`, with score 0 if either vector has
zero norm, never propagating NaN.  Vectors are lists of reals; an
undefined floating-point result (NaN) is modelled by `Option.none`, and
the division that could produce it by `safeDiv`. -/

open scoped Classical in
/-- Division that records undefinedness: `none` exactly when the
denominator is zero. -/
noncomputable def safeDiv (a b : ℝ) : Option ℝ :=
  if b = 0 then none else some (a / b)

/-- Modelled from the spec: dot product of two embedding vectors. -/
def dotProduct (v w : List ℝ) : ℝ :=
  (List.zipWith (· * ·) v w).sum

/-- Modelled from the spec: squared Euclidean norm. -/
def normSq (v : List ℝ) : ℝ :=
  dotProduct v v

/-- Modelled from the spec: Euclidean norm `‖v‖`. -/
noncomputable def vecNorm (v : List ℝ) : ℝ :=
  Real.sqrt (normSq v)

open scoped Classical in
/-- Modelled from the spec: guarded cosine similarity,
`dot(i,j) / (‖i‖·‖j‖)` with the zero-norm guard of section 4.4. -/
noncomputable def cosineSimilarity (v w : List ℝ) : ℝ :=
  if vecNorm v = 0 ∨ vecNorm w = 0 then 0
  else dotProduct v w / (vecNorm v * vecNorm w)

open scoped Classical in
/-- The same computation with the possibly-undefined division made
explicit: the guard decides whether `safeDiv` is reached. -/
noncomputable def cosineSimilarityChecked (v w : List ℝ) : Option ℝ :=
  if vecNorm v = 0 ∨ vecNorm w = 0 then some 0
  else safeDiv (dotProduct v w) (vecNorm v * vecNorm w)

/-! ## Data model of the matching core

Modelled from the spec (sections 3 and 4): the matching engine lives in
`scripts/process_csv.py`, which is invoked as an external process and is
absent from the repository sources. -/

/-- A row: ordinal position plus raw value (spec section 3). -/
abbrev Row := Nat × List Char

/-- Match provenance of one output record. -/
inductive MatchType where
  | exact
  | fuzzy
  | unmatched
deriving DecidableEq

/-- Modelled from the spec: the final durable output unit, `(columnA Row
or absent, columnB Row or absent, matchType, score or null)`.  Rows are
referenced by their ordinal, the stable join key. -/
structure MatchRecord where
  aSide : Option Nat
  bSide : Option Nat
  matchType : MatchType
  score : Option ℝ

/-! ## Exact Matcher

Modelled from the spec (section 4.2): normalize every value (trim,
case-fold); for each normalized value present in both columns, pair rows
greedily in original ordinal order until one side is exhausted; excess
rows fall through to fuzzy resolution.  The matcher below walks column A
in ordinal order and lets each row grab the earliest unconsumed column-B
row with the same normalized value, which realizes exactly that per-value
greedy pairing. -/

/-- Modelled from the spec: case/whitespace normalization used only for
exact-match comparison. -/
def normalizeValue (v : List Char) : List Char :=
  (jsTrim v).map Char.toLower

/-- Find the earliest row whose normalized value is `v` and remove it,
keeping the order of the remaining rows. -/
def findErase (v : List Char) : List Row → Option (Row × List Row)
  | [] => none
  | b :: bs =>
    if normalizeValue b.2 = v then some (b, bs)
    else
      match findErase v bs with
      | none => none
      | some (b', bs') => some (b', b :: bs')

/-- Modelled from the spec: the Exact Matcher.  Returns the exact pairs in
column-A ordinal order plus the two remainder sequences. -/
def exactMatch : List Row → List Row → List (Row × Row) × List Row × List Row
  | [], bs => ([], [], bs)
  | a :: as, bs =>
    match findErase (normalizeValue a.2) bs with
    | some (b, bs') =>
      let r := exactMatch as bs'
      ((a, b) :: r.1, r.2.1, r.2.2)
    | none =>
      let r := exactMatch as bs
      (r.1, a :: r.2.1, r.2.2)

/-- The rows of a column whose normalized value is `v`, in ordinal order. -/
def rowsWithValue (v : List Char) (rs : List Row) : List Row :=
  rs.filter fun r => decide (normalizeValue r.2 = v)

/-- Modelled from the spec: the MatchRecord an exact pair is written as
(matchType `exact`, score 1.0). -/
def exactRecord (p : Row × Row) : MatchRecord :=
  { aSide := some p.1.1, bSide := some p.2.1, matchType := .exact,
    score := some 1 }

section Resolver

variable {α : Type} [LinearOrder α]

/-! ## Assignment Resolver

Modelled from the spec (section 4.5): greedy descending-score assignment.
Repeatedly pick the highest remaining score in the matrix; if it meets
the threshold, commit that `(i, j)` pair as a fuzzy MatchRecord and
remove row `i` and column `j` from further consideration; if the best
remaining score is below threshold, stop and mark all remaining rows on
both sides as unmatched.  Ties on the maximum score prefer the pair with
the lower combined ordinal, and a full tie keeps the earliest cell in
row-major scan order.  The development is generic over a linearly
ordered score type: the pipeline instantiates it with `ℝ`. -/

/-- All cells of the score matrix over the remaining row and column
indices, in row-major order. -/
def allCells (ra rb : List Nat) : List (Nat × Nat) :=
  ra.flatMap fun i => rb.map fun j => (i, j)

/-- Modelled from the spec: cell `c` beats cell `d` when it has a
strictly higher score, or an equal score and a strictly lower combined
ordinal (the tie-break rule). -/
def beats (score : Nat → Nat → α) (c d : Nat × Nat) : Prop :=
  score d.1 d.2 < score c.1 c.2 ∨
    (score c.1 c.2 = score d.1 d.2 ∧ c.1 + c.2 < d.1 + d.2)

instance (score : Nat → Nat → α) (c d : Nat × Nat) :
    Decidable (beats score c d) := by
  unfold beats; infer_instance

/-- Pick the best cell of a list: highest score, ties broken in favor of
the lower combined ordinal, and the earliest cell wins a full tie. -/
def chooseBest (score : Nat → Nat → α) : List (Nat × Nat) → Option (Nat × Nat)
  | [] => none
  | c :: cs =>
    match chooseBest score cs with
    | none => some c
    | some b => if beats score b c then some b else some c

/-- The best remaining cell of the score matrix. -/
def bestCell (score : Nat → Nat → α) (ra rb : List Nat) :
    Option (Nat × Nat) :=
  chooseBest score (allCells ra rb)

/-- Modelled from the spec: the greedy descending-score assignment loop.
The fuel argument bounds the number of committed pairs; it is consumed
once per committed pair, and `resolveAssignment` supplies enough fuel for
every row of the smaller side. -/
def resolveAux (score : Nat → Nat → α) (t : α) :
    Nat → List Nat → List Nat → List (Nat × Nat) × List Nat × List Nat
  | 0, ra, rb => ([], ra, rb)
  | Nat.succ fuel, ra, rb =>
    match bestCell score ra rb with
    | none => ([], ra, rb)
    | some (i, j) =>
      if t ≤ score i j then
        let r := resolveAux score t fuel (ra.erase i) (rb.erase j)
        ((i, j) :: r.1, r.2.1, r.2.2)
      else ([], ra, rb)

/-- Modelled from the spec: the Assignment Resolver on the remaining row
and column indices. -/
def resolveAssignment (score : Nat → Nat → α) (t : α)
    (ra rb : List Nat) : List (Nat × Nat) × List Nat × List Nat :=
  resolveAux score t ra.length ra rb

end Resolver

/-! ## Result Writer and the pipeline

Modelled from the spec (sections 2 and 4.6): exact matches are resolved
first; the remainder is embedded, scored with cosine similarity, resolved
greedily under the threshold, and the writer merges exact records (in
column-A ordinal order), fuzzy records (in resolution order) and
unmatched records (grouped by column). -/

/-- Modelled from the spec: the MatchRecord written for a committed fuzzy
pair of matrix coordinates, carrying the ordinals of the two remainder
rows and the accepted similarity score. -/
def fuzzyRecord (rA rB : List Row) (score : Nat → Nat → ℝ)
    (ij : Nat × Nat) : MatchRecord :=
  { aSide := some (rA.getD ij.1 (0, [])).1,
    bSide := some (rB.getD ij.2 (0, [])).1,
    matchType := .fuzzy, score := some (score ij.1 ij.2) }

/-- Modelled from the spec: an unmatched column-A row. -/
def unmatchedRecordA (rA : List Row) (i : Nat) : MatchRecord :=
  { aSide := some (rA.getD i (0, [])).1, bSide := none,
    matchType := .unmatched, score := none }

/-- Modelled from the spec: an unmatched column-B row. -/
def unmatchedRecordB (rB : List Row) (j : Nat) : MatchRecord :=
  { aSide := none, bSide := some (rB.getD j (0, [])).1,
    matchType := .unmatched, score := none }

/-- Modelled from the spec: the Result Writer.  Resolves the remainder
matrix indices greedily and merges exact, fuzzy and unmatched records in
the stable output order of section 4.6. -/
noncomputable def writeRecords (exPairs : List (Row × Row))
    (rA rB : List Row) (score : Nat → Nat → ℝ) (t : ℝ) :
    List MatchRecord :=
  let res := resolveAssignment score t (List.range rA.length)
    (List.range rB.length)
  exPairs.map exactRecord ++ res.1.map (fuzzyRecord rA rB score) ++
    res.2.1.map (unmatchedRecordA rA) ++ res.2.2.map (unmatchedRecordB rB)

/-- Modelled from the spec: the full matching pipeline with a total
per-string Embedding Provider stub — loader output, exact matching,
embedding of the remainder, cosine scoring, greedy assignment, result
writing. -/
noncomputable def runMatchPipeline (embed : List Char → List ℝ) (t : ℝ)
    (A B : List (List Char)) : List MatchRecord :=
  let em := exactMatch A.enum B.enum
  let vA := em.2.1.map fun r => embed r.2
  let vB := em.2.2.map fun r => embed r.2
  writeRecords em.1 em.2.1 em.2.2
    (fun i j => cosineSimilarity (vA.getD i []) (vB.getD j [])) t

/-- Modelled from the spec: the failure kind the Embedding Provider
surfaces on transport/quota failure (spec section 7). -/
inductive EmbeddingError where
  | embeddingServiceError
deriving DecidableEq

/-- Modelled from the spec: the batch of remainder values sent to the
Embedding Provider after exact matching. -/
def remainderBatch (A B : List (List Char)) : List (List Char) :=
  (exactMatch A.enum B.enum).2.1.map Prod.snd ++
    (exactMatch A.enum B.enum).2.2.map Prod.snd

/-- Modelled from the spec: the pipeline with a fallible batch Embedding
Provider (bounded retries already folded into the provider's outcome).
If the remainder is empty no embedding call is issued; a provider error
on the batch aborts the run producing no output table; otherwise the
returned vectors are split back into the two sides and the run
completes. -/
noncomputable def runMatchPipelineE
    (embedBatch : List (List Char) → Except EmbeddingError (List (List ℝ)))
    (t : ℝ) (A B : List (List Char)) :
    Except EmbeddingError (List MatchRecord) :=
  let em := exactMatch A.enum B.enum
  if remainderBatch A B = [] then
    Except.ok (writeRecords em.1 em.2.1 em.2.2 (fun _ _ => 0) t)
  else
    match embedBatch (remainderBatch A B) with
    | Except.error e => Except.error e
    | Except.ok vecs =>
      let vA := vecs.take em.2.1.length
      let vB := vecs.drop em.2.1.length
      Except.ok (writeRecords em.1 em.2.1 em.2.2
        (fun i j => cosineSimilarity (vA.getD i []) (vB.getD j [])) t)

/-! ## Theorems -/

theorem head?_dropWhile_not (p : α → Bool) (l : List α) :
    ((l.dropWhile p).head?.all fun c => !(p c)) = true := by
  induction l with
  | nil => rfl
  | cons c t ih =>
    by_cases h : p c
    · simpa [List.dropWhile, h] using ih
    · simp [List.dropWhile, h]

theorem head?_take_succ (l : List α) (n : Nat) :
    (l.take (n + 1)).head? = l.head? := by
  cases l <;> rfl

/-- C10.  `sanitizeFilename` always returns a name made only of characters
from `[a-zA-Z0-9._-]` (in particular no `/` or `\` path separators), never
starting with a dot, of length at most 255; hence joining the result to the
temp directory stays inside that directory. -/
theorem sanitizeFilename_safe (s : List Char) :
    ((sanitizeFilename s).all allowedFilenameChar) = true ∧
    ((sanitizeFilename s).head?.all fun c => c != '.') = true ∧
    (sanitizeFilename s).length ≤ 255 ∧
    ((sanitizeFilename s).all fun c => c != '/' && c != '\\') = true := by
  have hmap : ∀ c ∈ (s.map fun c => if allowedFilenameChar c then c else '_'),
      allowedFilenameChar c = true := by
    intro c hc
    rcases List.mem_map.mp hc with ⟨d, _, hd⟩
    subst hd
    by_cases h : allowedFilenameChar d
    · rw [if_pos h]; exact h
    · rw [if_neg h]; decide
  have hsub : sanitizeFilename s ⊆
      (s.map fun c => if allowedFilenameChar c then c else '_') := by
    unfold sanitizeFilename
    exact ((List.take_sublist _ _).trans (List.dropWhile_sublist _)).subset
  have hall : ∀ c ∈ sanitizeFilename s, allowedFilenameChar c = true :=
    fun c hc => hmap c (hsub hc)
  refine ⟨List.all_eq_true.mpr hall, ?_, ?_, ?_⟩
  · unfold sanitizeFilename
    rw [show (255 : Nat) = 254 + 1 from rfl, head?_take_succ]
    have := head?_dropWhile_not (fun c => c == '.')
      (s.map fun c => if allowedFilenameChar c then c else '_')
    revert this
    cases ((s.map fun c => if allowedFilenameChar c then c else '_').dropWhile
        fun c => c == '.').head? with
    | none => intro; rfl
    | some c => simp [Option.all]
  · exact List.length_take_le _ _
  · refine List.all_eq_true.mpr fun c hc => ?_
    have h := hall c hc
    have h1 : c ≠ '/' := by
      intro he; rw [he] at h; exact absurd h (by decide)
    have h2 : c ≠ '\\' := by
      intro he; rw [he] at h; exact absurd h (by decide)
    simp [h1, h2]

/-- C6 counterexample.  The claim says a file containing only a header row
and no data rows is rejected as malformed; `validateCSVColumns` accepts the
one-line file `a,b`, which has a 2-column header and zero data rows. -/
theorem validateCSVColumns_header_only_accepted :
    validateCSVColumns ['a', ',', 'b'] = true := by decide

/-- C6 amended.  `validateCSVColumns` rejects an input whenever no nonempty
line is present, or the header line has fewer than 2 nonempty columns; a
table with a well-formed header and zero data rows is accepted (the
zero-data-rows case of the claim does not hold on the code). -/
theorem validateCSVColumns_rejects_bad_shape (content : List Char) :
    (nonEmptyLines content = [] → validateCSVColumns content = false) ∧
    (∀ first rest, nonEmptyLines content = first :: rest →
      (csvColumns first).length < 2 → validateCSVColumns content = false) := by
  constructor
  · intro h
    simp [validateCSVColumns, h]
  · intro first rest h hlt
    simp [validateCSVColumns, h, if_pos hlt]

/-- C6 witness.  A one-column file is rejected, via
`validateCSVColumns_rejects_bad_shape` applied at the concrete input `x`. -/
theorem validateCSVColumns_rejects_bad_shape_witness :
    validateCSVColumns ['x'] = false :=
  (validateCSVColumns_rejects_bad_shape ['x']).2 ['x'] [] (by decide) (by decide)

/-- C9.  `runPythonScript` never propagates an exception: every invocation
returns a result object whose `success` field is a boolean, and every
failure carries a nonempty message (in particular a missing file yields a
failure, not a throw). -/
theorem runPythonScript_never_throws (env : ActionEnv) :
    ((runPythonScript env).success = true ∨
      ((runPythonScript env).success = false ∧
        0 < (runPythonScript env).message.length)) ∧
    (env.file = none → (runPythonScript env).success = false) := by
  constructor
  · unfold runPythonScript
    cases h : (match env.file with
      | none => JsOutcome.thrown "Missing file"
      | some name =>
          if env.isVercel then vercelBranch name env else localBranch name env) with
    | ok r => left; rfl
    | thrown m =>
      right
      refine ⟨rfl, ?_⟩
      by_cases hm : m = ""
      · simp only [hm, if_pos rfl]
        decide
      · simp only [if_neg hm]
        rcases m with ⟨l⟩
        cases l with
        | nil => exact absurd rfl hm
        | cons c cs => simp [String.length]
  · intro h
    unfold runPythonScript
    rw [h]

/-- C9 witness.  `runPythonScript_never_throws` applied to a concrete
environment with no uploaded file: the call returns a failure result. -/
theorem runPythonScript_never_throws_witness :
    (runPythonScript ⟨none, false, JsOutcome.thrown "", JsOutcome.ok (),
      JsOutcome.ok ("", ""), JsOutcome.ok ""⟩).success = false :=
  (runPythonScript_never_throws _).2 rfl

/-- C5.  The scorer never produces an undefined (NaN) score: the checked
computation always returns a value, that value is 0 whenever either
vector has zero norm (including an all-zero vector), and it equals
`dot(i,j) / (‖i‖·‖j‖)` whenever both norms are nonzero. -/
theorem cosineSimilarity_never_nan (v w : List ℝ) :
    cosineSimilarityChecked v w = some (cosineSimilarity v w) ∧
    (vecNorm v = 0 ∨ vecNorm w = 0 → cosineSimilarity v w = 0) ∧
    (vecNorm v ≠ 0 → vecNorm w ≠ 0 →
      cosineSimilarity v w = dotProduct v w / (vecNorm v * vecNorm w)) := by
  by_cases h : vecNorm v = 0 ∨ vecNorm w = 0
  · refine ⟨?_, fun _ => ?_, fun hv hw => ?_⟩
    · simp [cosineSimilarityChecked, cosineSimilarity, h]
    · simp [cosineSimilarity, h]
    · rcases h with h | h
      exacts [absurd h hv, absurd h hw]
  · have hvw := not_or.mp h
    have hprod : vecNorm v * vecNorm w ≠ 0 := mul_ne_zero hvw.1 hvw.2
    refine ⟨?_, fun hc => absurd hc h, fun _ _ => ?_⟩
    · simp [cosineSimilarityChecked, cosineSimilarity, h, safeDiv, hprod]
    · simp [cosineSimilarity, h]

/-- C5 witness.  `cosineSimilarity_never_nan` applied to the zero vector
`[0]` against `[1]`: the checked score is defined and equals 0. -/
theorem cosineSimilarity_never_nan_witness :
    cosineSimilarityChecked [(0 : ℝ)] [(1 : ℝ)] =
      some (cosineSimilarity [(0 : ℝ)] [(1 : ℝ)]) ∧
    cosineSimilarity [(0 : ℝ)] [(1 : ℝ)] = 0 :=
  ⟨(cosineSimilarity_never_nan [(0 : ℝ)] [(1 : ℝ)]).1,
   (cosineSimilarity_never_nan [(0 : ℝ)] [(1 : ℝ)]).2.1
     (Or.inl (by simp [vecNorm, normSq, dotProduct]))⟩

theorem findErase_eq_some {v : List Char} {bs : List Row} {b : Row}
    {bs' : List Row} (h : findErase v bs = some (b, bs')) :
    normalizeValue b.2 = v ∧
    ∃ l1 l2, bs = l1 ++ b :: l2 ∧ bs' = l1 ++ l2 ∧
      ∀ x ∈ l1, normalizeValue x.2 ≠ v := by
  induction bs generalizing bs' with
  | nil => simp [findErase] at h
  | cons c cs ih =>
    by_cases hc : normalizeValue c.2 = v
    · rw [findErase, if_pos hc] at h
      obtain ⟨rfl, rfl⟩ : c = b ∧ cs = bs' := by
        simpa using h
      exact ⟨hc, [], cs, rfl, rfl, by simp⟩
    · rw [findErase, if_neg hc] at h
      cases hfe : findErase v cs with
      | none => rw [hfe] at h; simp at h
      | some p =>
        rw [hfe] at h
        obtain ⟨rfl, rfl⟩ : p.1 = b ∧ c :: p.2 = bs' := by
          cases p; simpa using h
        obtain ⟨hb, l1, l2, hcs, hp2, hl1⟩ := ih hfe
        exact ⟨hb, c :: l1, l2, by simp [hcs], by simp [hp2],
          by simpa [hc] using hl1⟩

theorem findErase_eq_none {v : List Char} {bs : List Row}
    (h : findErase v bs = none) : ∀ b ∈ bs, normalizeValue b.2 ≠ v := by
  induction bs with
  | nil => simp
  | cons c cs ih =>
    by_cases hc : normalizeValue c.2 = v
    · rw [findErase, if_pos hc] at h; simp at h
    · rw [findErase, if_neg hc] at h
      cases hfe : findErase v cs with
      | none =>
        intro b hb
        rcases List.mem_cons.mp hb with rfl | hb
        · exact hc
        · exact ih hfe b hb
      | some p => rw [hfe] at h; simp at h

/-- When `findErase` removes a row, the searched list is a permutation of
that row consed onto the rest. -/
theorem findErase_perm {v : List Char} {bs : List Row} {b : Row}
    {bs' : List Row} (h : findErase v bs = some (b, bs')) :
    bs.Perm (b :: bs') := by
  obtain ⟨-, l1, l2, rfl, rfl, -⟩ := findErase_eq_some h
  exact List.perm_middle

/-- Removing the found row splits its value group at the head. -/
theorem rowsWithValue_findErase_self {v : List Char} {bs : List Row}
    {b : Row} {bs' : List Row} (h : findErase v bs = some (b, bs')) :
    rowsWithValue v bs = b :: rowsWithValue v bs' := by
  obtain ⟨hb, l1, l2, rfl, rfl, hl1⟩ := findErase_eq_some h
  have hfil : l1.filter (fun r => decide (normalizeValue r.2 = v)) = [] :=
    List.filter_eq_nil_iff.mpr fun x hx => by simpa using hl1 x hx
  simp [rowsWithValue, List.filter_append, hfil, hb]

/-- Removing a row of another value leaves a value group unchanged. -/
theorem rowsWithValue_findErase_other {u v : List Char} {bs : List Row}
    {b : Row} {bs' : List Row} (h : findErase u bs = some (b, bs'))
    (huv : u ≠ v) : rowsWithValue v bs' = rowsWithValue v bs := by
  obtain ⟨hb, l1, l2, rfl, rfl, -⟩ := findErase_eq_some h
  have hbv : ¬ normalizeValue b.2 = v := fun hc => huv (hb ▸ hc)
  simp [rowsWithValue, List.filter_append, hbv]

/-- When no row matches, the value group is empty. -/
theorem rowsWithValue_of_findErase_none {v : List Char} {bs : List Row}
    (h : findErase v bs = none) : rowsWithValue v bs = [] :=
  List.filter_eq_nil_iff.mpr fun x hx => by simpa using findErase_eq_none h x hx

theorem rowsWithValue_cons_pos {v : List Char} {a : Row} (as : List Row)
    (h : normalizeValue a.2 = v) :
    rowsWithValue v (a :: as) = a :: rowsWithValue v as := by
  simp [rowsWithValue, List.filter_cons, h]

theorem rowsWithValue_cons_neg {v : List Char} {a : Row} (as : List Row)
    (h : ¬ normalizeValue a.2 = v) :
    rowsWithValue v (a :: as) = rowsWithValue v as := by
  simp [rowsWithValue, List.filter_cons, h]

/-- For every normalized value, the exact pairs carrying that value are
the ordinal-ordered zip of the two value groups: rows are paired greedily
in original ordinal order until one side is exhausted. -/
theorem exactMatch_pairs_zip (v : List Char) (as bs : List Row) :
    ((exactMatch as bs).1.filter fun p => decide (normalizeValue p.1.2 = v)) =
      List.zip (rowsWithValue v as) (rowsWithValue v bs) := by
  induction as generalizing bs with
  | nil => simp [exactMatch, rowsWithValue]
  | cons a as ih =>
    cases hfe : findErase (normalizeValue a.2) bs with
    | some p =>
      obtain ⟨b, bs'⟩ := p
      by_cases hv : normalizeValue a.2 = v
      · have hbs := rowsWithValue_findErase_self
          (show findErase v bs = some (b, bs') from hv ▸ hfe)
        simp only [exactMatch, hfe]
        rw [rowsWithValue_cons_pos _ hv, hbs]
        simp only [List.zip_cons_cons, List.filter_cons]
        simp [hv, ih bs']
      · have hbs := rowsWithValue_findErase_other hfe hv
        simp only [exactMatch, hfe]
        rw [rowsWithValue_cons_neg _ hv, ← hbs]
        simp only [List.filter_cons]
        simp [hv, ih bs']
    | none =>
      by_cases hv : normalizeValue a.2 = v
      · have hnone := rowsWithValue_of_findErase_none hfe
        subst hv
        simp only [exactMatch, hfe]
        rw [rowsWithValue_cons_pos _ rfl, hnone]
        simp [ih bs, hnone]
      · simp only [exactMatch, hfe]
        rw [rowsWithValue_cons_neg _ hv]
        exact ih bs

/-- The value group of the column-A remainder drops the paired prefix:
whatever column B could not absorb is left over. -/
theorem exactMatch_remainderA (v : List Char) (as bs : List Row) :
    rowsWithValue v (exactMatch as bs).2.1 =
      (rowsWithValue v as).drop (rowsWithValue v bs).length := by
  induction as generalizing bs with
  | nil => simp [exactMatch, rowsWithValue]
  | cons a as ih =>
    cases hfe : findErase (normalizeValue a.2) bs with
    | some p =>
      obtain ⟨b, bs'⟩ := p
      by_cases hv : normalizeValue a.2 = v
      · have hbs := rowsWithValue_findErase_self
          (show findErase v bs = some (b, bs') from hv ▸ hfe)
        simp only [exactMatch, hfe]
        rw [rowsWithValue_cons_pos _ hv, hbs]
        simp only [List.length_cons, List.drop_succ_cons]
        exact ih bs'
      · have hbs := rowsWithValue_findErase_other hfe hv
        simp only [exactMatch, hfe]
        rw [rowsWithValue_cons_neg _ hv, ← hbs]
        exact ih bs'
    | none =>
      by_cases hv : normalizeValue a.2 = v
      · have hnone := rowsWithValue_of_findErase_none hfe
        subst hv
        simp only [exactMatch, hfe]
        rw [rowsWithValue_cons_pos _ rfl, hnone]
        rw [rowsWithValue_cons_pos _ rfl]
        simp [ih bs, hnone]
      · simp only [exactMatch, hfe]
        rw [rowsWithValue_cons_neg _ hv, rowsWithValue_cons_neg _ hv]
        exact ih bs

/-- The value group of the column-B remainder drops the paired prefix. -/
theorem exactMatch_remainderB (v : List Char) (as bs : List Row) :
    rowsWithValue v (exactMatch as bs).2.2 =
      (rowsWithValue v bs).drop (rowsWithValue v as).length := by
  induction as generalizing bs with
  | nil => simp [exactMatch, rowsWithValue]
  | cons a as ih =>
    cases hfe : findErase (normalizeValue a.2) bs with
    | some p =>
      obtain ⟨b, bs'⟩ := p
      by_cases hv : normalizeValue a.2 = v
      · have hbs := rowsWithValue_findErase_self
          (show findErase v bs = some (b, bs') from hv ▸ hfe)
        simp only [exactMatch, hfe]
        rw [rowsWithValue_cons_pos _ hv, hbs]
        simp only [List.length_cons, List.drop_succ_cons]
        exact ih bs'
      · have hbs := rowsWithValue_findErase_other hfe hv
        simp only [exactMatch, hfe]
        rw [rowsWithValue_cons_neg _ hv, ← hbs]
        exact ih bs'
    | none =>
      by_cases hv : normalizeValue a.2 = v
      · have hnone := rowsWithValue_of_findErase_none hfe
        subst hv
        simp only [exactMatch, hfe]
        rw [rowsWithValue_cons_pos _ rfl, hnone]
        simp [ih bs, hnone]
      · simp only [exactMatch, hfe]
        rw [rowsWithValue_cons_neg _ hv]
        exact ih bs

/-- Every column-A row ends either as the A-side of an exact pair or in
the column-A remainder, exactly once. -/
theorem exactMatch_perm_left (as bs : List Row) :
    ((exactMatch as bs).1.map Prod.fst ++ (exactMatch as bs).2.1).Perm as := by
  induction as generalizing bs with
  | nil => simp [exactMatch]
  | cons a as ih =>
    cases hfe : findErase (normalizeValue a.2) bs with
    | some p =>
      obtain ⟨b, bs'⟩ := p
      simp only [exactMatch, hfe, List.map_cons, List.cons_append]
      exact (ih bs').cons a
    | none =>
      simp only [exactMatch, hfe]
      exact List.perm_middle.trans ((ih bs).cons a)

/-- Every column-B row ends either as the B-side of an exact pair or in
the column-B remainder, exactly once. -/
theorem exactMatch_perm_right (as bs : List Row) :
    ((exactMatch as bs).1.map Prod.snd ++ (exactMatch as bs).2.2).Perm bs := by
  induction as generalizing bs with
  | nil => simp [exactMatch]
  | cons a as ih =>
    cases hfe : findErase (normalizeValue a.2) bs with
    | some p =>
      obtain ⟨b, bs'⟩ := p
      have hperm := findErase_perm hfe
      simp only [exactMatch, hfe, List.map_cons, List.cons_append]
      exact ((ih bs').cons b).trans hperm.symm
    | none =>
      simp only [exactMatch, hfe]
      exact ih bs

/-- C2.  For a normalized value `v` occurring `k` times in column A and
`j` times in column B, the Exact Matcher pairs rows greedily in original
ordinal order (the pairs for `v` are the zip of the two ordinal-ordered
value groups), producing exactly `min k j` pairs, each emitted as an
exact MatchRecord with score 1.0, and leaving exactly `k - j` rows of
column A and `j - k` rows of column B (that is, `|k - j|` rows of the
majority side) in the remainder for fuzzy resolution. -/
theorem exactMatcher_min_pairs (v : List Char) (as bs : List Row) :
    ((exactMatch as bs).1.filter fun p => decide (normalizeValue p.1.2 = v)) =
      List.zip (rowsWithValue v as) (rowsWithValue v bs) ∧
    ((exactMatch as bs).1.filter fun p =>
        decide (normalizeValue p.1.2 = v)).length =
      min (rowsWithValue v as).length (rowsWithValue v bs).length ∧
    (rowsWithValue v (exactMatch as bs).2.1).length =
      (rowsWithValue v as).length - (rowsWithValue v bs).length ∧
    (rowsWithValue v (exactMatch as bs).2.2).length =
      (rowsWithValue v bs).length - (rowsWithValue v as).length ∧
    ((exactMatch as bs).1.map exactRecord).all
      (fun r => decide (r.matchType = MatchType.exact ∧
        r.score = some (1 : ℝ))) = true := by
  refine ⟨exactMatch_pairs_zip v as bs, ?_, ?_, ?_, ?_⟩
  · rw [exactMatch_pairs_zip v as bs]
    exact List.length_zip _ _
  · rw [exactMatch_remainderA]
    exact List.length_drop _ _
  · rw [exactMatch_remainderB]
    exact List.length_drop _ _
  · refine List.all_eq_true.mpr fun r hr => ?_
    rcases List.mem_map.mp hr with ⟨p, -, rfl⟩
    exact decide_eq_true ⟨rfl, rfl⟩

section ResolverLemmas

variable {α : Type} [LinearOrder α]

theorem beats_irrefl (score : Nat → Nat → α) (c : Nat × Nat) :
    ¬ beats score c c := by
  rcases Nat.lt_or_ge c.1 c.1 with h | _
  · exact absurd h (lt_irrefl _)
  · rintro (h | ⟨-, h⟩) <;> exact absurd h (lt_irrefl _)

theorem beats_trans {score : Nat → Nat → α} {c d e : Nat × Nat}
    (h1 : beats score c d) (h2 : beats score d e) : beats score c e := by
  rcases h1 with h1 | ⟨h1e, h1s⟩ <;> rcases h2 with h2 | ⟨h2e, h2s⟩
  · exact Or.inl (h2.trans h1)
  · exact Or.inl (h2e ▸ h1)
  · exact Or.inl (h1e ▸ h2)
  · exact Or.inr ⟨h1e.trans h2e, h1s.trans h2s⟩

theorem not_beats_iff (score : Nat → Nat → α) (c d : Nat × Nat) :
    ¬ beats score c d ↔
      score c.1 c.2 ≤ score d.1 d.2 ∧
        (score c.1 c.2 = score d.1 d.2 → d.1 + d.2 ≤ c.1 + c.2) := by
  unfold beats
  push_neg
  rfl

theorem not_beats_trans {score : Nat → Nat → α} {c d e : Nat × Nat}
    (h1 : ¬ beats score c d) (h2 : ¬ beats score d e) :
    ¬ beats score c e := by
  rw [not_beats_iff] at h1 h2 ⊢
  refine ⟨h1.1.trans h2.1, fun heq => ?_⟩
  have hcd : score c.1 c.2 = score d.1 d.2 :=
    le_antisymm h1.1 (h2.1.trans heq.symm.le)
  have hde : score d.1 d.2 = score e.1 e.2 := by rw [← hcd, heq]
  exact (h2.2 hde).trans (h1.2 hcd)

theorem chooseBest_eq_none {score : Nat → Nat → α} {l : List (Nat × Nat)} :
    chooseBest score l = none ↔ l = [] := by
  cases l with
  | nil => simp [chooseBest]
  | cons c cs =>
    rw [chooseBest]
    cases chooseBest score cs with
    | none => simp
    | some b =>
      by_cases h : beats score b c <;> simp [h]

theorem chooseBest_mem {score : Nat → Nat → α} {l : List (Nat × Nat)}
    {c : Nat × Nat} (h : chooseBest score l = some c) : c ∈ l := by
  induction l generalizing c with
  | nil => simp [chooseBest] at h
  | cons e es ih =>
    rw [chooseBest] at h
    cases hb : chooseBest score es with
    | none =>
      rw [hb] at h
      obtain rfl : e = c := by simpa using h
      exact List.mem_cons_self _ _
    | some b =>
      rw [hb] at h
      dsimp only at h
      by_cases hbe : beats score b e
      · rw [if_pos hbe] at h
        obtain rfl : b = c := by simpa using h
        exact List.mem_cons_of_mem _ (ih hb)
      · rw [if_neg hbe] at h
        obtain rfl : e = c := by simpa using h
        exact List.mem_cons_self _ _

theorem chooseBest_not_beaten {score : Nat → Nat → α} {l : List (Nat × Nat)}
    {c : Nat × Nat} (h : chooseBest score l = some c) :
    ∀ d ∈ l, ¬ beats score d c := by
  induction l generalizing c with
  | nil => simp [chooseBest] at h
  | cons e es ih =>
    rw [chooseBest] at h
    cases hb : chooseBest score es with
    | none =>
      rw [hb] at h
      obtain rfl : e = c := by simpa using h
      have hes : es = [] := chooseBest_eq_none.mp hb
      subst hes
      intro d hd
      rcases List.mem_singleton.mp hd with rfl
      exact beats_irrefl score _
    | some b =>
      rw [hb] at h
      dsimp only at h
      by_cases hbe : beats score b e
      · rw [if_pos hbe] at h
        obtain rfl : b = c := by simpa using h
        intro d hd
        rcases List.mem_cons.mp hd with rfl | hd
        · exact fun hec => beats_irrefl score _ (beats_trans hbe hec)
        · exact ih hb d hd
      · rw [if_neg hbe] at h
        obtain rfl : e = c := by simpa using h
        intro d hd
        rcases List.mem_cons.mp hd with rfl | hd
        · exact beats_irrefl score _
        · exact not_beats_trans (ih hb d hd) hbe

theorem mem_allCells {ra rb : List Nat} {i j : Nat} :
    (i, j) ∈ allCells ra rb ↔ i ∈ ra ∧ j ∈ rb := by
  constructor
  · intro h
    rcases List.mem_flatMap.mp h with ⟨i', hi', hmem⟩
    rcases List.mem_map.mp hmem with ⟨j', hj', hp⟩
    obtain ⟨rfl, rfl⟩ : i' = i ∧ j' = j := by
      constructor <;> [exact congrArg Prod.fst hp; exact congrArg Prod.snd hp]
    exact ⟨hi', hj'⟩
  · rintro ⟨hi, hj⟩
    exact List.mem_flatMap.mpr ⟨i, hi, List.mem_map.mpr ⟨j, hj, rfl⟩⟩

theorem bestCell_mem {score : Nat → Nat → α} {ra rb : List Nat}
    {i j : Nat} (h : bestCell score ra rb = some (i, j)) :
    i ∈ ra ∧ j ∈ rb :=
  mem_allCells.mp (chooseBest_mem h)

/-- The selected cell has maximal score, and among maximal cells a
minimal combined ordinal. -/
theorem bestCell_optimal {score : Nat → Nat → α} {ra rb : List Nat}
    {i j : Nat} (h : bestCell score ra rb = some (i, j)) :
    ∀ i' ∈ ra, ∀ j' ∈ rb,
      score i' j' < score i j ∨
        (score i' j' = score i j ∧ i + j ≤ i' + j') := by
  intro i' hi' j' hj'
  have hnb := chooseBest_not_beaten h (i', j') (mem_allCells.mpr ⟨hi', hj'⟩)
  rw [not_beats_iff] at hnb
  rcases lt_or_eq_of_le hnb.1 with hlt | heq
  · exact Or.inl hlt
  · exact Or.inr ⟨heq, hnb.2 heq⟩

/-- Every remaining row index ends either in a committed pair or in the
unmatched output, exactly once, on both sides. -/
theorem resolveAux_perm (score : Nat → Nat → α) (t : α) :
    ∀ fuel ra rb,
      ((resolveAux score t fuel ra rb).1.map Prod.fst ++
        (resolveAux score t fuel ra rb).2.1).Perm ra ∧
      ((resolveAux score t fuel ra rb).1.map Prod.snd ++
        (resolveAux score t fuel ra rb).2.2).Perm rb := by
  intro fuel
  induction fuel with
  | zero => intro ra rb; simp [resolveAux]
  | succ fuel ih =>
    intro ra rb
    cases hbc : bestCell score ra rb with
    | none => simp [resolveAux, hbc]
    | some c =>
      obtain ⟨i, j⟩ := c
      have hmem := bestCell_mem hbc
      by_cases ht : t ≤ score i j
      · simp only [resolveAux, hbc, if_pos ht, List.map_cons, List.cons_append]
        exact ⟨((ih _ _).1.cons i).trans (List.perm_cons_erase hmem.1).symm,
          ((ih _ _).2.cons j).trans (List.perm_cons_erase hmem.2).symm⟩
      · simp [resolveAux, hbc, ht]

/-- When the best cell meets the threshold the resolver commits it and
recurses with row `i` and column `j` removed. -/
theorem resolveAssignment_commit {score : Nat → Nat → α} {t : α}
    {ra rb : List Nat} {i j : Nat}
    (h : bestCell score ra rb = some (i, j)) (ht : t ≤ score i j) :
    resolveAssignment score t ra rb =
      ((i, j) :: (resolveAssignment score t (ra.erase i) (rb.erase j)).1,
        (resolveAssignment score t (ra.erase i) (rb.erase j)).2.1,
        (resolveAssignment score t (ra.erase i) (rb.erase j)).2.2) := by
  have hmem := bestCell_mem h
  have hlen : ra.length = (ra.erase i).length + 1 := by
    rw [List.length_erase_of_mem hmem.1]
    exact (Nat.succ_pred_eq_of_pos (List.length_pos.mpr
      (List.ne_nil_of_mem hmem.1))).symm
  rw [resolveAssignment, hlen, resolveAux, h]
  simp only [if_pos ht]
  rfl

/-- When the best remaining score is below the threshold the resolver
stops: no pair is committed and all remaining rows stay unmatched. -/
theorem resolveAssignment_reject {score : Nat → Nat → α} {t : α}
    {ra rb : List Nat} {i j : Nat}
    (h : bestCell score ra rb = some (i, j)) (ht : score i j < t) :
    resolveAssignment score t ra rb = ([], ra, rb) := by
  rw [resolveAssignment]
  cases hra : ra.length with
  | zero => rw [resolveAux]
  | succ n =>
    rw [resolveAux, h]
    dsimp only
    rw [if_neg (not_le.mpr ht)]

end ResolverLemmas

/-- C3.  The Assignment Resolver selects the highest remaining score
(ties broken in favor of the lower combined ordinal): the selected cell
lies in the remaining matrix and no remaining cell has a higher score,
nor an equal score with a smaller combined ordinal; if the selected score
meets the threshold the pair is committed and row `i` and column `j` are
removed from consideration, and if the best remaining score is below the
threshold the resolver stops with no pair committed and all remaining
rows on both sides unmatched. -/
theorem resolver_greedy_assignment {α : Type} [LinearOrder α]
    (score : Nat → Nat → α) (t : α) (ra rb : List Nat) (i j : Nat)
    (h : bestCell score ra rb = some (i, j)) :
    (i ∈ ra ∧ j ∈ rb) ∧
    (∀ i' ∈ ra, ∀ j' ∈ rb,
      score i' j' < score i j ∨
        (score i' j' = score i j ∧ i + j ≤ i' + j')) ∧
    (t ≤ score i j →
      resolveAssignment score t ra rb =
        ((i, j) :: (resolveAssignment score t (ra.erase i) (rb.erase j)).1,
          (resolveAssignment score t (ra.erase i) (rb.erase j)).2.1,
          (resolveAssignment score t (ra.erase i) (rb.erase j)).2.2)) ∧
    (score i j < t → resolveAssignment score t ra rb = ([], ra, rb)) :=
  ⟨bestCell_mem h, bestCell_optimal h,
    fun ht => resolveAssignment_commit h ht,
    fun ht => resolveAssignment_reject h ht⟩

/-- C3 witness.  `resolver_greedy_assignment` on the concrete 2×2 integer
matrix `score i j = 2 - i - j` with threshold 1: the best cell `(0, 0)`
meets the threshold and is committed. -/
theorem resolver_greedy_assignment_witness :
    resolveAssignment (fun i j => (2 : ℤ) - i - j) 1 [0, 1] [0, 1] =
      ((0, 0) :: (resolveAssignment (fun i j => (2 : ℤ) - i - j) 1
          ([0, 1].erase 0) ([0, 1].erase 0)).1,
        (resolveAssignment (fun i j => (2 : ℤ) - i - j) 1
          ([0, 1].erase 0) ([0, 1].erase 0)).2.1,
        (resolveAssignment (fun i j => (2 : ℤ) - i - j) 1
          ([0, 1].erase 0) ([0, 1].erase 0)).2.2) :=
  (resolver_greedy_assignment (fun i j => (2 : ℤ) - i - j) 1 [0, 1] [0, 1]
    0 0 (by decide)).2.2.1 (by decide)

/-- C4.  Threshold boundary of the Assignment Resolver: a best cell whose
similarity score is exactly equal to the acceptance threshold is accepted
(committed as a fuzzy pair), while a best score strictly below the
threshold is rejected, leaving every remaining row a candidate for
`unmatched`. -/
theorem resolver_threshold_boundary {α : Type} [LinearOrder α]
    (score : Nat → Nat → α) (t : α) (ra rb : List Nat) (i j : Nat)
    (h : bestCell score ra rb = some (i, j)) :
    (score i j = t → (i, j) ∈ (resolveAssignment score t ra rb).1) ∧
    (score i j < t → resolveAssignment score t ra rb = ([], ra, rb)) :=
  ⟨fun he => by
      rw [resolveAssignment_commit h (le_of_eq he.symm)]
      exact List.mem_cons_self _ _,
    fun ht => resolveAssignment_reject h ht⟩

/-- C4 witness.  `resolver_threshold_boundary` on a concrete 1×1 matrix
whose only score equals the threshold: the pair is accepted. -/
theorem resolver_threshold_boundary_witness :
    (0, 0) ∈ (resolveAssignment (fun _ _ => (1 : ℤ)) 1 [0] [0]).1 :=
  (resolver_threshold_boundary (fun _ _ => (1 : ℤ)) 1 [0] [0] 0 0
    (by decide)).1 (by decide)

/-- The resolver outputs partition the inputs, stated on
`resolveAssignment`. -/
theorem resolveAssignment_perm {α : Type} [LinearOrder α]
    (score : Nat → Nat → α) (t : α) (ra rb : List Nat) :
    ((resolveAssignment score t ra rb).1.map Prod.fst ++
      (resolveAssignment score t ra rb).2.1).Perm ra ∧
    ((resolveAssignment score t ra rb).1.map Prod.snd ++
      (resolveAssignment score t ra rb).2.2).Perm rb :=
  resolveAux_perm score t ra.length ra rb

theorem filterMap_some_comp {α β : Type} (f : α → β) (l : List α) :
    (l.filterMap fun a => some (f a)) = l.map f := by
  induction l with
  | nil => rfl
  | cons a t ih => simp [List.filterMap_cons, ih]

theorem filterMap_none_comp {α β : Type} (l : List α) :
    (l.filterMap fun _ => (none : Option β)) = [] := by
  induction l with
  | nil => rfl
  | cons a t ih => simp [List.filterMap_cons, ih]

theorem map_getD_range {α : Type} (l : List α) (d : α) :
    (List.range l.length).map (fun i => l.getD i d) = l := by
  induction l with
  | nil => rfl
  | cons a t ih =>
    rw [List.length_cons, List.range_succ_eq_map, List.map_cons,
      List.map_map]
    refine congrArg₂ _ rfl ?_
    have hc : ((fun i => (a :: t).getD i d) ∘ Nat.succ) =
        fun i => t.getD i d := by
      funext i; rfl
    rw [hc, ih]

/-- The writer's A-side ordinals are exactly the exact-pair A ordinals
followed by the remainder-A ordinals, up to permutation; same on the B
side. -/
theorem writeRecords_coverage (exPairs : List (Row × Row))
    (rA rB : List Row) (score : Nat → Nat → ℝ) (t : ℝ) :
    ((writeRecords exPairs rA rB score t).filterMap
        MatchRecord.aSide).Perm
      ((exPairs.map fun p => p.1.1) ++ rA.map fun r => r.1) ∧
    ((writeRecords exPairs rA rB score t).filterMap
        MatchRecord.bSide).Perm
      ((exPairs.map fun p => p.2.1) ++ rB.map fun r => r.1) := by
  have hres := resolveAssignment_perm score t (List.range rA.length)
    (List.range rB.length)
  constructor
  · unfold writeRecords
    simp only [List.filterMap_append, List.filterMap_map]
    rw [show (MatchRecord.aSide ∘ exactRecord) = fun p : Row × Row =>
        some p.1.1 from rfl,
      show (MatchRecord.aSide ∘ fuzzyRecord rA rB score) =
        fun ij : Nat × Nat => some (rA.getD ij.1 (0, [])).1 from rfl,
      show (MatchRecord.aSide ∘ unmatchedRecordA rA) =
        fun i => some (rA.getD i (0, [])).1 from rfl,
      show (MatchRecord.aSide ∘ unmatchedRecordB rB) =
        fun _ => (none : Option Nat) from rfl,
      filterMap_some_comp, filterMap_some_comp, filterMap_some_comp,
      filterMap_none_comp, List.append_nil, List.append_assoc]
    refine List.Perm.append_left _ ?_
    have hmap := (hres.1.map fun i => (rA.getD i (0, [])).1)
    rw [List.map_append, List.map_map] at hmap
    refine List.Perm.trans ?_ (hmap.trans ?_)
    · rw [show ((fun i => (rA.getD i (0, [])).1) ∘ Prod.fst) =
        fun ij : Nat × Nat => (rA.getD ij.1 (0, [])).1 from rfl]
    · rw [show (fun i => (rA.getD i (0, [])).1) =
        ((fun r : Row => r.1) ∘ fun i => rA.getD i (0, [])) from rfl,
        ← List.map_map, map_getD_range]
  · unfold writeRecords
    simp only [List.filterMap_append, List.filterMap_map]
    rw [show (MatchRecord.bSide ∘ exactRecord) = fun p : Row × Row =>
        some p.2.1 from rfl,
      show (MatchRecord.bSide ∘ fuzzyRecord rA rB score) =
        fun ij : Nat × Nat => some (rB.getD ij.2 (0, [])).1 from rfl,
      show (MatchRecord.bSide ∘ unmatchedRecordA rA) =
        fun _ => (none : Option Nat) from rfl,
      show (MatchRecord.bSide ∘ unmatchedRecordB rB) =
        fun j => some (rB.getD j (0, [])).1 from rfl,
      filterMap_some_comp, filterMap_some_comp, filterMap_some_comp,
      filterMap_none_comp, List.append_nil, List.append_assoc]
    refine List.Perm.append_left _ ?_
    have hmap := (hres.2.map fun j => (rB.getD j (0, [])).1)
    rw [List.map_append, List.map_map] at hmap
    refine List.Perm.trans ?_ (hmap.trans ?_)
    · rw [show ((fun j => (rB.getD j (0, [])).1) ∘ Prod.snd) =
        fun ij : Nat × Nat => (rB.getD ij.2 (0, [])).1 from rfl]
    · rw [show (fun j => (rB.getD j (0, [])).1) =
        ((fun r : Row => r.1) ∘ fun j => rB.getD j (0, [])) from rfl,
        ← List.map_map, map_getD_range]

/-- Coverage of the written records for any score function: the A-side
ordinals are a permutation of all column-A positions, and likewise on
the B side. -/
theorem pipelineRecords_coverage (A B : List (List Char))
    (score : Nat → Nat → ℝ) (t : ℝ) :
    ((writeRecords (exactMatch A.enum B.enum).1
        (exactMatch A.enum B.enum).2.1 (exactMatch A.enum B.enum).2.2
        score t).filterMap MatchRecord.aSide).Perm
      (List.range A.length) ∧
    ((writeRecords (exactMatch A.enum B.enum).1
        (exactMatch A.enum B.enum).2.1 (exactMatch A.enum B.enum).2.2
        score t).filterMap MatchRecord.bSide).Perm
      (List.range B.length) := by
  have hw := writeRecords_coverage (exactMatch A.enum B.enum).1
    (exactMatch A.enum B.enum).2.1 (exactMatch A.enum B.enum).2.2 score t
  have hL := exactMatch_perm_left A.enum B.enum
  have hR := exactMatch_perm_right A.enum B.enum
  constructor
  · refine hw.1.trans ?_
    have hmap := hL.map (Prod.fst : Row → Nat)
    rw [List.map_append, List.map_map] at hmap
    refine List.Perm.trans ?_ (hmap.trans ?_)
    · rw [show ((Prod.fst : Row → Nat) ∘ (Prod.fst : Row × Row → Row)) =
        fun p : Row × Row => p.1.1 from rfl,
        show (Prod.fst : Row → Nat) = fun r : Row => r.1 from rfl]
    · rw [List.enum_map_fst]
  · refine hw.2.trans ?_
    have hmap := hR.map (Prod.fst : Row → Nat)
    rw [List.map_append, List.map_map] at hmap
    refine List.Perm.trans ?_ (hmap.trans ?_)
    · rw [show ((Prod.fst : Row → Nat) ∘ (Prod.snd : Row × Row → Row)) =
        fun p : Row × Row => p.2.1 from rfl,
        show (Prod.fst : Row → Nat) = fun r : Row => r.1 from rfl]
    · rw [List.enum_map_fst]

/-- C1.  For every input table (and any embedding stub and threshold),
every column-A and column-B row appears in exactly one MatchRecord of the
pipeline output — the A-side ordinals of the records are a permutation of
all column-A positions and likewise for B, so no row is dropped and none
is duplicated — and every record carries one of the terminal states
`exact`, `fuzzy` or `unmatched`. -/
theorem pipeline_coverage (embed : List Char → List ℝ) (t : ℝ)
    (A B : List (List Char)) :
    ((runMatchPipeline embed t A B).filterMap MatchRecord.aSide).Perm
      (List.range A.length) ∧
    ((runMatchPipeline embed t A B).filterMap MatchRecord.bSide).Perm
      (List.range B.length) ∧
    ((runMatchPipeline embed t A B).all fun r =>
      decide (r.matchType = MatchType.exact ∨
        r.matchType = MatchType.fuzzy ∨
        r.matchType = MatchType.unmatched)) = true := by
  refine ⟨(pipelineRecords_coverage A B _ t).1,
    (pipelineRecords_coverage A B _ t).2,
    List.all_eq_true.mpr fun r _ => decide_eq_true ?_⟩
  cases hM : r.matchType
  · exact Or.inl rfl
  · exact Or.inr (Or.inl rfl)
  · exact Or.inr (Or.inr rfl)

/-- C8.  Determinism: two pipeline runs on identical input, with
Embedding Provider stubs that agree on every string, produce identical
output — the same record ordering and the same assignment. -/
theorem pipeline_deterministic (e1 e2 : List Char → List ℝ) (t : ℝ)
    (A B : List (List Char)) (h : ∀ s, e1 s = e2 s) :
    runMatchPipeline e1 t A B = runMatchPipeline e2 t A B := by
  rw [funext h]

/-- C8 witness.  `pipeline_deterministic` applied to a concrete input and
a concrete fixed stub. -/
theorem pipeline_deterministic_witness :
    runMatchPipeline (fun _ => [(1 : ℝ)]) 0 [['a']] [['b']] =
      runMatchPipeline (fun _ => [(1 : ℝ)]) 0 [['a']] [['b']] :=
  pipeline_deterministic (fun _ => [(1 : ℝ)]) (fun _ => [(1 : ℝ)]) 0
    [['a']] [['b']] fun _ => rfl

/-- C7.  If the Embedding Provider fails on the (only) batch, the
pipeline run fails with `EmbeddingServiceError` and no output table is
produced; and in general a run either fails with an error or completes
fully, with every row of both columns resolved in exactly one record —
there is no partially-matched result. -/
theorem pipeline_no_partial_result
    (embedBatch : List (List Char) → Except EmbeddingError (List (List ℝ)))
    (t : ℝ) (A B : List (List Char)) :
    (∀ err, remainderBatch A B ≠ [] →
      embedBatch (remainderBatch A B) = Except.error err →
      runMatchPipelineE embedBatch t A B = Except.error err) ∧
    ((∃ err, runMatchPipelineE embedBatch t A B = Except.error err) ∨
      (∃ recs, runMatchPipelineE embedBatch t A B = Except.ok recs ∧
        (recs.filterMap MatchRecord.aSide).Perm (List.range A.length) ∧
        (recs.filterMap MatchRecord.bSide).Perm (List.range B.length))) := by
  constructor
  · intro err hne herr
    simp only [runMatchPipelineE, if_neg hne, herr]
  · by_cases hb : remainderBatch A B = []
    · right
      exact ⟨writeRecords (exactMatch A.enum B.enum).1
          (exactMatch A.enum B.enum).2.1 (exactMatch A.enum B.enum).2.2
          (fun _ _ => 0) t,
        by simp only [runMatchPipelineE, if_pos hb],
        (pipelineRecords_coverage A B _ t).1,
        (pipelineRecords_coverage A B _ t).2⟩
    · cases hres : embedBatch (remainderBatch A B) with
      | error e =>
        left
        exact ⟨e, by simp only [runMatchPipelineE, if_neg hb, hres]⟩
      | ok vecs =>
        right
        exact ⟨writeRecords (exactMatch A.enum B.enum).1
            (exactMatch A.enum B.enum).2.1 (exactMatch A.enum B.enum).2.2
            (fun i j => cosineSimilarity
              ((vecs.take (exactMatch A.enum B.enum).2.1.length).getD i [])
              ((vecs.drop (exactMatch A.enum B.enum).2.1.length).getD j []))
            t,
          by simp only [runMatchPipelineE, if_neg hb, hres],
          (pipelineRecords_coverage A B _ t).1,
          (pipelineRecords_coverage A B _ t).2⟩

/-- C7 witness.  `pipeline_no_partial_result` applied to the concrete
one-row columns `a` and `b` (nonempty remainder) and a provider stub
failing on every batch: the run aborts with `embeddingServiceError`. -/
theorem pipeline_no_partial_result_witness :
    runMatchPipelineE
      (fun _ => Except.error EmbeddingError.embeddingServiceError) 0
      [['a']] [['b']] =
      Except.error EmbeddingError.embeddingServiceError :=
  (pipeline_no_partial_result
    (fun _ => Except.error EmbeddingError.embeddingServiceError) 0
    [['a']] [['b']]).1 EmbeddingError.embeddingServiceError (by decide) rfl

end FuzzyMatch
